import Mathlib

/-!
Verification of the monorepo shipping pipeline of `libs/shipit-nx`
(`src/lib/features/ship/impl.ts` and the collaborators it imports).

The project graph, the dependency-resolver utilities, the phase list and the
pipeline runner are embedded shallowly.  The resolver utilities
(`find-dependencies.util`, `find-dependents.util`, `find-project-names.util`),
the phase classes and `runPhases` are imported by `impl.ts` from modules whose
code is not part of the excerpt; those are modelled from the specification and
marked as such in their doc comments.  `shipIt` itself is embedded from
`impl.ts` directly.
-/

namespace ShipitNx

/-- A project graph: an association list from project name to the list of
names of the projects it directly depends on (nodes = project names,
edges = direct dependency relation). -/
abbrev ProjectGraph := List (String × List String)

/-- Direct dependencies of `p` recorded in the graph (first matching entry;
`[]` when `p` is not a node). -/
def adjacent : ProjectGraph → String → List String
  | [], _ => []
  | (k, ds) :: rest, p => if k = p then ds else adjacent rest p

/-- The node names of the graph. -/
def keys (g : ProjectGraph) : List String := g.map Prod.fst

/-- Every name occurring anywhere in the graph: nodes and adjacency entries. -/
def allNames : ProjectGraph → List String
  | [] => []
  | (k, ds) :: rest => k :: ds ++ allNames rest

/-- The direct depends-on edge relation of a graph: `Edge g a b` holds when
project `a` directly depends on project `b`. -/
def Edge (g : ProjectGraph) (a b : String) : Prop := b ∈ adjacent g a

/-- Projects that directly depend on `p`: the inverted adjacency used by the
dependents traversal. -/
def radjacent (g : ProjectGraph) (p : String) : List String :=
  (keys g).filter fun a => decide (p ∈ adjacent g a)

theorem adjacent_subset_allNames {g : ProjectGraph} {a b : String}
    (h : b ∈ adjacent g a) : b ∈ allNames g := by
  induction g with
  | nil => simp [adjacent] at h
  | cons e rest ih =>
    obtain ⟨k, ds⟩ := e
    simp only [adjacent] at h
    by_cases hk : k = a
    · subst hk
      rw [if_pos rfl] at h
      simp [allNames, h]
    · rw [if_neg hk] at h
      simp [allNames, ih h]

theorem keys_subset_allNames {g : ProjectGraph} {a : String}
    (h : a ∈ keys g) : a ∈ allNames g := by
  induction g with
  | nil => simp [keys] at h
  | cons e rest ih =>
    obtain ⟨k, ds⟩ := e
    simp only [keys, List.map_cons, List.mem_cons] at h
    rcases h with h | h
    · simp [allNames, h]
    · simp [allNames, ih h]

theorem mem_keys_of_adjacent {g : ProjectGraph} {a b : String}
    (h : a ∈ adjacent g b) : b ∈ keys g := by
  induction g with
  | nil => simp [adjacent] at h
  | cons e rest ih =>
    obtain ⟨k, ds⟩ := e
    simp only [adjacent] at h
    by_cases hk : k = b
    · simp [keys, hk]
    · rw [if_neg hk] at h
      have hb : b ∈ keys rest := ih h
      simp only [keys, List.map_cons, List.mem_cons]
      exact Or.inr hb

theorem mem_radjacent {g : ProjectGraph} {a b : String} :
    b ∈ radjacent g a ↔ b ∈ keys g ∧ a ∈ adjacent g b := by
  simp [radjacent, List.mem_filter]

theorem radjacent_edge {g : ProjectGraph} {a b : String} :
    b ∈ radjacent g a ↔ Edge g b a := by
  rw [mem_radjacent]
  constructor
  · exact fun h => h.2
  · exact fun h => ⟨mem_keys_of_adjacent h, h⟩

/-! ### Visited-set traversal

Modelled from the spec: the resolver "traverses the graph … following
'depends-on' edges, returns all transitively reachable projects, excluding
`projectName` itself", deduplicating under diamonds and terminating on cycles
via a visited set (§4.1, §9).  The traversal is a bounded fixpoint iteration
of a one-step expansion over a finite set of visited names; the bound is the
size of the universe of names, which suffices because every productive step
strictly grows the visited set. -/

/-- One expansion step of the traversal: keep the visited set and add every
direct successor of a visited node. -/
def expand (adjF : String → List String) (s : Finset String) : Finset String :=
  s ∪ s.biUnion fun a => (adjF a).toFinset

theorem mem_expand {adjF : String → List String} {s : Finset String} {x : String} :
    x ∈ expand adjF s ↔ x ∈ s ∨ ∃ a ∈ s, x ∈ adjF a := by
  simp [expand]

theorem subset_expand {adjF : String → List String} {s : Finset String} :
    s ⊆ expand adjF s := Finset.subset_union_left

/-- Iterate `expand` until the visited set is closed, with explicit fuel. -/
def reachAux (adjF : String → List String) : Nat → Finset String → Finset String
  | 0, s => s
  | n + 1, s => if expand adjF s ⊆ s then s else reachAux adjF n (expand adjF s)

theorem subset_reachAux {adjF : String → List String} :
    ∀ (n : Nat) (s : Finset String), s ⊆ reachAux adjF n s := by
  intro n
  induction n with
  | zero => intro s; exact subset_refl s
  | succ n ih =>
    intro s
    by_cases h : expand adjF s ⊆ s
    · simp [reachAux, h]
    · simp only [reachAux, if_neg h]
      exact subset_expand.trans (ih (expand adjF s))

theorem reachAux_sound {adjF : String → List String} {p : String} :
    ∀ (n : Nat) (s : Finset String),
      (∀ x ∈ s, Relation.ReflTransGen (fun a b => b ∈ adjF a) p x) →
      ∀ x ∈ reachAux adjF n s, Relation.ReflTransGen (fun a b => b ∈ adjF a) p x := by
  intro n
  induction n with
  | zero => intro s hs; exact hs
  | succ n ih =>
    intro s hs
    by_cases h : expand adjF s ⊆ s
    · simpa [reachAux, h] using hs
    · simp only [reachAux, if_neg h]
      refine ih (expand adjF s) ?_
      intro x hx
      rcases mem_expand.mp hx with hx | ⟨a, ha, hab⟩
      · exact hs x hx
      · exact Relation.ReflTransGen.tail (hs a ha) hab

theorem expand_subset_univ {adjF : String → List String} {U s : Finset String}
    (hU : ∀ a, ∀ b ∈ adjF a, b ∈ U) (hs : s ⊆ U) :
    expand adjF s ⊆ U := by
  intro x hx
  rcases mem_expand.mp hx with hx | ⟨a, _, hab⟩
  · exact hs hx
  · exact hU a x hab

theorem reachAux_closed {adjF : String → List String} {U : Finset String}
    (hU : ∀ a, ∀ b ∈ adjF a, b ∈ U) :
    ∀ (n : Nat) (s : Finset String), s ⊆ U → U.card ≤ n + s.card →
      expand adjF (reachAux adjF n s) ⊆ reachAux adjF n s := by
  intro n
  induction n with
  | zero =>
    intro s hs hcard
    have hsU : s = U := Finset.eq_of_subset_of_card_le hs (by simpa using hcard)
    simp only [reachAux, hsU]
    exact expand_subset_univ hU (subset_refl U)
  | succ n ih =>
    intro s hs hcard
    by_cases h : expand adjF s ⊆ s
    · simp [reachAux, h]
    · simp only [reachAux, if_neg h]
      have hssub : s ⊂ expand adjF s := ⟨subset_expand, h⟩
      have hlt : s.card < (expand adjF s).card := Finset.card_lt_card hssub
      refine ih (expand adjF s) (expand_subset_univ hU hs) ?_
      omega

theorem reachAux_complete {adjF : String → List String} {p : String}
    {F : Finset String} (hp : p ∈ F) (hclosed : expand adjF F ⊆ F) :
    ∀ x, Relation.ReflTransGen (fun a b => b ∈ adjF a) p x → x ∈ F := by
  intro x hx
  induction hx with
  | refl => exact hp
  | tail _ hbc ih =>
    exact hclosed (mem_expand.mpr (Or.inr ⟨_, ih, hbc⟩))

/-- The set of projects reachable from `p` (including `p`), computed by the
visited-set traversal bounded by the size of the universe `U`. -/
def reachFrom (adjF : String → List String) (U : Finset String) (p : String) :
    Finset String :=
  reachAux adjF U.card {p}

theorem mem_reachFrom {adjF : String → List String} {U : Finset String} {p : String}
    (hU : ∀ a, ∀ b ∈ adjF a, b ∈ U) (hp : p ∈ U) (x : String) :
    x ∈ reachFrom adjF U p ↔ Relation.ReflTransGen (fun a b => b ∈ adjF a) p x := by
  constructor
  · intro hx
    refine reachAux_sound U.card {p} ?_ x hx
    intro y hy
    rw [Finset.mem_singleton] at hy
    subst hy
    exact Relation.ReflTransGen.refl
  · intro hx
    have hpF : p ∈ reachFrom adjF U p :=
      subset_reachAux U.card {p} (Finset.mem_singleton_self p)
    have hclosed : expand adjF (reachFrom adjF U p) ⊆ reachFrom adjF U p := by
      refine reachAux_closed hU U.card {p} ?_ ?_
      · intro y hy
        rw [Finset.mem_singleton] at hy
        subst hy
        exact hp
      · simp
    exact reachAux_complete hpF hclosed x hx

/-- The universe of names the traversal can ever visit starting from `p`. -/
def univOf (g : ProjectGraph) (p : String) : Finset String :=
  insert p (allNames g).toFinset

theorem adjacent_mem_univOf {g : ProjectGraph} {p : String} :
    ∀ a, ∀ b ∈ adjacent g a, b ∈ univOf g p := by
  intro a b hb
  simp only [univOf, Finset.mem_insert, List.mem_toFinset]
  exact Or.inr (adjacent_subset_allNames hb)

theorem radjacent_mem_univOf {g : ProjectGraph} {p : String} :
    ∀ a, ∀ b ∈ radjacent g a, b ∈ univOf g p := by
  intro a b hb
  simp only [univOf, Finset.mem_insert, List.mem_toFinset]
  exact Or.inr (keys_subset_allNames (mem_radjacent.mp hb).1)

/-- Modelled from the spec: the set computed by `findDependencies` — all
projects transitively reachable from `p` along depends-on edges, excluding `p`
itself, via visited-set traversal (§4.1). -/
def dependencySet (g : ProjectGraph) (p : String) : Finset String :=
  (reachFrom (adjacent g) (univOf g p) p).erase p

/-- Modelled from the spec: the set computed by `findDependents` — the same
traversal over inverted ("depended-on-by") edges (§4.1). -/
def dependentSet (g : ProjectGraph) (p : String) : Finset String :=
  (reachFrom (radjacent g) (univOf g p) p).erase p

theorem mem_dependencySet {g : ProjectGraph} {p q : String} :
    q ∈ dependencySet g p ↔ q ≠ p ∧ Relation.ReflTransGen (Edge g) p q := by
  rw [dependencySet, Finset.mem_erase]
  have hchar := mem_reachFrom (adjacent_mem_univOf (g := g) (p := p))
    (Finset.mem_insert_self p (allNames g).toFinset) q
  constructor
  · intro ⟨hne, hmem⟩
    exact ⟨hne, hchar.mp hmem⟩
  · intro ⟨hne, hre⟩
    exact ⟨hne, hchar.mpr hre⟩

theorem mem_dependentSet {g : ProjectGraph} {p q : String} :
    q ∈ dependentSet g p ↔ q ≠ p ∧ Relation.ReflTransGen (Edge g) q p := by
  rw [dependentSet, Finset.mem_erase]
  have hchar := mem_reachFrom (radjacent_mem_univOf (g := g) (p := p))
    (Finset.mem_insert_self p (allNames g).toFinset) q
  have hswap : Relation.ReflTransGen (fun a b => b ∈ radjacent g a) p q ↔
      Relation.ReflTransGen (Edge g) q p := by
    rw [show (fun a b => b ∈ radjacent g a) = Function.swap (Edge g) by
      funext a b
      exact propext radjacent_edge]
    exact Relation.reflTransGen_swap
  constructor
  · intro ⟨hne, hmem⟩
    exact ⟨hne, hswap.mp (hchar.mp hmem)⟩
  · intro ⟨hne, hre⟩
    exact ⟨hne, hchar.mpr (hswap.mpr hre)⟩

/-- Errors surfaced before the phase pipeline starts: failure of project-graph
creation, or a target project missing from the graph. -/
inductive ShipError
  | graphCreation
  | projectNotFound (name : String)
deriving DecidableEq, Repr

/-- Modelled from the spec: `findDependencies(graph, projectName)` — pure graph
query returning the transitive dependency set; its only failure mode is
"project not found in graph", surfaced as a configuration error (§4.1, §7). -/
def findDependencies (g : ProjectGraph) (p : String) :
    Except ShipError (Finset String) :=
  if p ∈ keys g then .ok (dependencySet g p) else .error (.projectNotFound p)

/-- Modelled from the spec: `findDependents(graph, projectName)` — the same
query over inverted edges, with the same failure mode (§4.1, §7). -/
def findDependents (g : ProjectGraph) (p : String) :
    Except ShipError (Finset String) :=
  if p ∈ keys g then .ok (dependentSet g p) else .error (.projectNotFound p)

/-- Modelled from the spec: `findProjectNames(projects)` — enumerates every
known project name in the workspace, each exactly once, in a stable order
(§4.1). -/
def findProjectNames (projects : List (String × String)) : List String :=
  (projects.map Prod.fst).dedup

/-! ### The phase pipeline -/

/-- The seven concrete phases imported by `impl.ts`. -/
inductive PhaseName
  | clone
  | corruptionCheck
  | clean
  | sync
  | verifyRepo
  | postProcess
  | push
deriving DecidableEq, Repr

/-- Modelled from the spec: `runPhases(orderedPhases, config)` executes phases
strictly in the given order, each awaited to completion before the next starts;
on the first phase that fails, execution stops immediately and no subsequent
phase runs (§4.3).  `behavior` abstracts each phase's success against the one
fixed configuration of the run.  The first component is the trace of phases
that actually executed, in order (a failing phase executed, then stopped the
run); the second is whether every listed phase completed. -/
def runPhases (behavior : PhaseName → Bool) :
    List PhaseName → List PhaseName × Bool
  | [] => ([], true)
  | p :: rest =>
    if behavior p then
      let r := runPhases behavior rest
      (p :: r.1, r.2)
    else ([p], false)

/-- The phase list built by `shipIt` (impl.ts lines 46–54): the six leading
phases, then `PushPhase` unless `dryRun` is truthy. -/
def phaseList (dryRun : Bool) : List PhaseName :=
  [.clone, .corruptionCheck, .clean, .sync, .verifyRepo, .postProcess] ++
    (if dryRun then [] else [.push])

/-- `ShipExecutorOptions` (impl.ts lines 19–24): `maxWarnings` and `dryRun`
are optional. -/
structure ShipExecutorOptions where
  repo : String
  branch : String
  maxWarnings : Option Nat
  dryRun : Option Bool

/-- The slice of nx's `ExecutorContext` that `shipIt` reads: the workspace
root, the optional invoking project name, and the map of workspace projects
to their root paths (`context.workspace.projects`). -/
structure ExecutorContext where
  root : String
  projectName : Option String
  projects : List (String × String)

/-- Modelled from the spec: the `ShipConfig` value (its class is imported by
`impl.ts` from `../../configs/ship.config`, outside the excerpt) with the
fields §3 lists; the single-project fields are optional and absent for a
whole-workspace ship.  `projectRoot`, when the key is present, may still hold
no path (the optional-chained lookup in impl.ts line 37), hence the nested
option. -/
structure ShipConfig where
  sourcePath : String
  maxWarnings : Option Nat
  destinationRepoURL : String
  destinationBranch : String
  project : Option String
  projectRoot : Option (Option String)
  dependencies : Option (Finset String)
  dependents : Option (Finset String)
  workspace : Option (List String)

/-- `context.workspace.projects[name]?.root` (impl.ts line 37). -/
def lookupRoot : List (String × String) → String → Option String
  | [], _ => none
  | (k, r) :: rest, s => if k = s then some r else lookupRoot rest s

/-- The TypeScript truthiness test `context.projectName &&
context.projectName !== 'workspace'` (impl.ts line 34): an absent name and the
empty string are falsy, and the sentinel name `workspace` is excluded. -/
def namesSingleProject (context : ExecutorContext) : Bool :=
  match context.projectName with
  | none => false
  | some s => !(s == "") && !(s == "workspace")

/-- The always-present part of the config (impl.ts lines 30–33). -/
def baseConfig (options : ShipExecutorOptions) (context : ExecutorContext) :
    ShipConfig :=
  { sourcePath := context.root
    maxWarnings := options.maxWarnings
    destinationRepoURL := options.repo
    destinationBranch := options.branch
    project := none
    projectRoot := none
    dependencies := none
    dependents := none
    workspace := none }

/-- The `ShipConfig` construction of impl.ts lines 29–43: the single-project
fields are added by the conditional object spread exactly when
`context.projectName` is truthy and differs from the sentinel `workspace`;
the awaited resolver calls happen here, before `runPhases`, and their
project-not-found failure aborts the construction (dependencies first, as in
the source's evaluation order). -/
def buildConfig (g : ProjectGraph) (options : ShipExecutorOptions)
    (context : ExecutorContext) : Except ShipError ShipConfig :=
  match context.projectName with
  | none => .ok (baseConfig options context)
  | some s =>
    if s = "" ∨ s = "workspace" then .ok (baseConfig options context)
    else
      match findDependencies g s, findDependents g s with
      | .ok deps, .ok depts =>
        .ok { baseConfig options context with
              project := some s
              projectRoot := some (lookupRoot context.projects s)
              dependencies := some deps
              dependents := some depts
              workspace := some (findProjectNames context.projects) }
      | .error e, _ => .error e
      | .ok _, .error e => .error e

/-- The value `shipIt` resolves with: `{success: boolean}`
(impl.ts lines 57–58). -/
structure ShipResult where
  success : Bool
deriving DecidableEq, Repr

/-- `shipIt` (impl.ts lines 26–59).  `graphResult` stands for the awaited
`createProjectGraphAsync()` outcome and `behavior` for the phases' success
against the built config (their classes are outside the excerpt).  The
returned pair is the trace of executed phases (for specification purposes;
empty when the run never reaches `runPhases`) together with the outcome of
the promise: `.error` when a pre-pipeline step rejects, otherwise
`.ok {success}` — the `.then/.catch` pair wraps only the `runPhases` call, so
only a pipeline failure is converted to `{success: false}`. -/
def shipIt (graphResult : Except ShipError ProjectGraph)
    (behavior : PhaseName → Bool) (options : ShipExecutorOptions)
    (context : ExecutorContext) :
    List PhaseName × Except ShipError ShipResult :=
  match graphResult with
  | .error e => ([], .error e)
  | .ok g =>
    match buildConfig g options context with
    | .error e => ([], .error e)
    | .ok _config =>
      let r := runPhases behavior (phaseList (options.dryRun.getD false))
      (r.1, .ok ⟨r.2⟩)

/-- Modelled from the spec: `VerifyRepoPhase` succeeds exactly when no
required artifact is missing and the detected warning count does not exceed
`maxWarnings` (§4.4, §7: "warning count exceeds threshold, missing required
file"). -/
def verifyRepoSucceeds (warnings : Nat) (missingArtifact : Bool)
    (maxWarnings : Nat) : Bool :=
  !missingArtifact && decide (warnings ≤ maxWarnings)

theorem runPhases_all_true {behavior : PhaseName → Bool} :
    ∀ l : List PhaseName, (∀ p ∈ l, behavior p = true) →
      runPhases behavior l = (l, true) := by
  intro l
  induction l with
  | nil => intro _; rfl
  | cons p rest ih =>
    intro h
    have hp : behavior p = true := h p (List.mem_cons_self p rest)
    have hrest := ih fun q hq => h q (List.mem_cons_of_mem p hq)
    simp [runPhases, hp, hrest]

theorem runPhases_first_failure {behavior : PhaseName → Bool} :
    ∀ (pre : List PhaseName) (p : PhaseName) (post : List PhaseName),
      (∀ q ∈ pre, behavior q = true) → behavior p = false →
      runPhases behavior (pre ++ p :: post) = (pre ++ [p], false) := by
  intro pre
  induction pre with
  | nil =>
    intro p post _ hp
    simp [runPhases, hp]
  | cons q rest ih =>
    intro p post hpre hp
    have hq : behavior q = true := hpre q (List.mem_cons_self q rest)
    have hrest := ih p post (fun x hx => hpre x (List.mem_cons_of_mem q hx)) hp
    simp [runPhases, hq, hrest]

theorem runPhases_snd {behavior : PhaseName → Bool} :
    ∀ l : List PhaseName, (runPhases behavior l).2 = l.all behavior := by
  intro l
  induction l with
  | nil => rfl
  | cons p rest ih =>
    by_cases hp : behavior p = true
    · simp [runPhases, hp, ih]
    · simp only [Bool.not_eq_true] at hp
      simp [runPhases, hp]

theorem runPhases_trace_subset {behavior : PhaseName → Bool} :
    ∀ l : List PhaseName, ∀ q ∈ (runPhases behavior l).1, q ∈ l := by
  intro l
  induction l with
  | nil => intro q hq; simp [runPhases] at hq
  | cons p rest ih =>
    intro q hq
    by_cases hp : behavior p = true
    · simp only [runPhases, hp, if_pos rfl] at hq
      rcases List.mem_cons.mp hq with h | h
      · simp [h]
      · exact List.mem_cons_of_mem p (ih q h)
    · simp only [Bool.not_eq_true] at hp
      simp [runPhases, hp] at hq
      simp [hq]

/-! ### Concrete fixtures used by the witnesses -/

/-- The A→B→C workspace of spec §8: A depends on B, B depends on C. -/
def chainGraph : ProjectGraph := [("A", ["B"]), ("B", ["C"]), ("C", [])]

/-- A two-node dependency cycle. -/
def cycleGraph : ProjectGraph := [("a", ["b"]), ("b", ["a"])]

def exampleOptions : ShipExecutorOptions :=
  { repo := "git@example:dest.git", branch := "main",
    maxWarnings := none, dryRun := none }

def dryRunOptions : ShipExecutorOptions :=
  { exampleOptions with dryRun := some true }

def workspaceContext : ExecutorContext :=
  { root := "/repo", projectName := none,
    projects := [("A", "libs/a"), ("B", "libs/b"), ("C", "libs/c")] }

def projectContext : ExecutorContext :=
  { workspaceContext with projectName := some "A" }

def missingContext : ExecutorContext :=
  { workspaceContext with projectName := some "Z" }

def allSucceed : PhaseName → Bool := fun _ => true

def corruptionFails : PhaseName → Bool
  | .corruptionCheck => false
  | _ => true

/-- Every phase succeeds except VerifyRepo, which detects 1 warning against a
threshold of 0. -/
def strictVerify : PhaseName → Bool
  | .verifyRepo => verifyRepoSucceeds 1 false 0
  | _ => true

/-- Every phase succeeds; VerifyRepo detects 1 warning against a threshold
of 1. -/
def lenientVerify : PhaseName → Bool
  | .verifyRepo => verifyRepoSucceeds 1 false 1
  | _ => true

/-- The config built for `projectContext` over `chainGraph`. -/
def exampleSingleConfig : ShipConfig :=
  { baseConfig exampleOptions projectContext with
    project := some "A"
    projectRoot := some (lookupRoot projectContext.projects "A")
    dependencies := some (dependencySet chainGraph "A")
    dependents := some (dependentSet chainGraph "A")
    workspace := some (findProjectNames projectContext.projects) }

/-! ### The claims -/

/-- C1: for every non-dry-run invocation of `shipIt` in which the
project-graph creation and config construction succeed and every phase
succeeds, the returned result is `{success: true}` and the phases execute
exactly once each, in exactly the order Clone, CorruptionCheck, Clean, Sync,
VerifyRepo, PostProcess, Push, with no other phase executed (the trace equals
that list). -/
theorem shipIt_success_executes_all_in_order
    (g : ProjectGraph) (behavior : PhaseName → Bool)
    (options : ShipExecutorOptions) (context : ExecutorContext)
    (config : ShipConfig)
    (hdry : options.dryRun.getD false = false)
    (hcfg : buildConfig g options context = .ok config)
    (hall : ∀ p, behavior p = true) :
    shipIt (.ok g) behavior options context =
      ([.clone, .corruptionCheck, .clean, .sync, .verifyRepo, .postProcess,
        .push], .ok ⟨true⟩) := by
  have hrun := runPhases_all_true (phaseList false) (fun p _ => hall p)
  simp [phaseList] at hrun
  simp [shipIt, hcfg, hdry, phaseList, hrun]

theorem shipIt_success_executes_all_in_order_witness :
    exampleOptions.dryRun.getD false = false ∧
    buildConfig chainGraph exampleOptions workspaceContext =
      .ok (baseConfig exampleOptions workspaceContext) ∧
    (∀ p, allSucceed p = true) ∧
    shipIt (.ok chainGraph) allSucceed exampleOptions workspaceContext =
      ([.clone, .corruptionCheck, .clean, .sync, .verifyRepo, .postProcess,
        .push], .ok ⟨true⟩) :=
  ⟨rfl, rfl, fun _ => rfl,
    shipIt_success_executes_all_in_order chainGraph allSucceed exampleOptions
      workspaceContext (baseConfig exampleOptions workspaceContext) rfl rfl
      (fun _ => rfl)⟩

/-- C2: for every invocation of `shipIt` with `dryRun` set to `true`, the
Push phase is never executed — whatever the phases' outcomes — while the six
other phases execute in the defined order (all of them when every phase
succeeds); and when `dryRun` is absent it is falsy (the default is false), so
Push is included. -/
theorem shipIt_dryRun_omits_push
    (g : ProjectGraph) (behavior : PhaseName → Bool)
    (options : ShipExecutorOptions) (context : ExecutorContext)
    (config : ShipConfig)
    (hcfg : buildConfig g options context = .ok config) :
    (options.dryRun = some true →
      PhaseName.push ∉ (shipIt (.ok g) behavior options context).1) ∧
    (options.dryRun = some true → (∀ p, behavior p = true) →
      (shipIt (.ok g) behavior options context).1 =
        [.clone, .corruptionCheck, .clean, .sync, .verifyRepo,
         .postProcess]) ∧
    (options.dryRun = none → (∀ p, behavior p = true) →
      (shipIt (.ok g) behavior options context).1 =
        [.clone, .corruptionCheck, .clean, .sync, .verifyRepo, .postProcess,
         .push]) := by
  have hship : shipIt (.ok g) behavior options context =
      ((runPhases behavior (phaseList (options.dryRun.getD false))).1,
        .ok ⟨(runPhases behavior (phaseList (options.dryRun.getD false))).2⟩) := by
    simp [shipIt, hcfg]
  refine ⟨?_, ?_, ?_⟩
  · intro hdry hmem
    rw [hship] at hmem
    have hsub := runPhases_trace_subset
      (phaseList (options.dryRun.getD false)) _ hmem
    rw [hdry] at hsub
    simp [phaseList] at hsub
  · intro hdry hall
    rw [hship, hdry]
    have hrun := runPhases_all_true
      (phaseList true) (fun p _ => hall p)
    simp [phaseList] at hrun
    simp [phaseList, hrun]
  · intro hdry hall
    rw [hship, hdry]
    have hrun := runPhases_all_true
      (phaseList false) (fun p _ => hall p)
    simp [phaseList] at hrun
    simp [phaseList, hrun]

theorem shipIt_dryRun_omits_push_witness :
    buildConfig chainGraph dryRunOptions workspaceContext =
      .ok (baseConfig dryRunOptions workspaceContext) ∧
    PhaseName.push ∉
      (shipIt (.ok chainGraph) allSucceed dryRunOptions workspaceContext).1 ∧
    (shipIt (.ok chainGraph) allSucceed dryRunOptions workspaceContext).1 =
      [.clone, .corruptionCheck, .clean, .sync, .verifyRepo, .postProcess] :=
  ⟨rfl,
    (shipIt_dryRun_omits_push chainGraph allSucceed dryRunOptions
      workspaceContext (baseConfig dryRunOptions workspaceContext) rfl).1 rfl,
    (shipIt_dryRun_omits_push chainGraph allSucceed dryRunOptions
      workspaceContext (baseConfig dryRunOptions workspaceContext) rfl).2.1 rfl
      (fun _ => rfl)⟩

/-- C3: execution is fail-fast: whenever the phases before `p` all succeed and
`p` fails, `runPhases` executes exactly the prefix up to and including `p` —
no phase listed after `p` executes; in particular, when Clone succeeds and
CorruptionCheck fails, the trace is `[Clone, CorruptionCheck]` and none of
Clean, Sync, VerifyRepo, PostProcess, Push is ever executed (for either
phase-list variant). -/
theorem runPhases_fail_fast
    (behavior : PhaseName → Bool) (pre : List PhaseName) (p : PhaseName)
    (post : List PhaseName)
    (hpre : ∀ q ∈ pre, behavior q = true) (hp : behavior p = false) :
    (runPhases behavior (pre ++ p :: post) = (pre ++ [p], false) ∧
      ∀ q ∈ post, q ∉ pre → q ≠ p →
        q ∉ (runPhases behavior (pre ++ p :: post)).1) ∧
    (behavior .clone = true → behavior .corruptionCheck = false →
      ∀ d : Bool,
        (runPhases behavior (phaseList d)).1 = [.clone, .corruptionCheck] ∧
        ∀ q ∈ ([.clean, .sync, .verifyRepo, .postProcess, .push] :
            List PhaseName),
          q ∉ (runPhases behavior (phaseList d)).1) := by
  have hmain := runPhases_first_failure pre p post hpre hp
  constructor
  · refine ⟨hmain, ?_⟩
    intro q _ hqpre hqp hmem
    rw [hmain] at hmem
    rcases List.mem_append.mp hmem with h | h
    · exact hqpre h
    · exact hqp (List.mem_singleton.mp h)
  · intro hclone hcc d
    have hpre2 : ∀ q ∈ ([.clone] : List PhaseName), behavior q = true := by
      intro q hq
      rw [List.mem_singleton.mp hq]
      exact hclone
    have key : runPhases behavior (phaseList d) =
        ([.clone, .corruptionCheck], false) := by
      cases d
      · have := runPhases_first_failure [.clone] .corruptionCheck
          [.clean, .sync, .verifyRepo, .postProcess, .push] hpre2 hcc
        simpa [phaseList] using this
      · have := runPhases_first_failure [.clone] .corruptionCheck
          [.clean, .sync, .verifyRepo, .postProcess] hpre2 hcc
        simpa [phaseList] using this
    refine ⟨by rw [key], ?_⟩
    intro q hq hmem
    rw [key] at hmem
    fin_cases hq <;> simp at hmem

theorem runPhases_fail_fast_witness :
    (∀ q ∈ ([.clone] : List PhaseName), corruptionFails q = true) ∧
    corruptionFails .corruptionCheck = false ∧
    runPhases corruptionFails
        ([.clone] ++ .corruptionCheck ::
          [.clean, .sync, .verifyRepo, .postProcess, .push]) =
      ([.clone, .corruptionCheck], false) ∧
    (runPhases corruptionFails (phaseList false)).1 =
      [.clone, .corruptionCheck] :=
  ⟨by decide, rfl,
    (runPhases_fail_fast corruptionFails [.clone] .corruptionCheck
      [.clean, .sync, .verifyRepo, .postProcess, .push] (by decide) rfl).1.1,
    ((runPhases_fail_fast corruptionFails [.clone] .corruptionCheck
      [.clean, .sync, .verifyRepo, .postProcess, .push] (by decide) rfl).2
      rfl rfl false).1⟩

/-- C4: the outcome of the pipeline is reduced to a single boolean: the
promise resolves with `{success: b}` where `b` is exactly "every phase in the
list completed", so it is `{success: true}` precisely on full completion and
`{success: false}` on any phase failure; the value carries only that boolean,
no phase-level detail. -/
theorem shipIt_result_boolean_collapse
    (g : ProjectGraph) (behavior : PhaseName → Bool)
    (options : ShipExecutorOptions) (context : ExecutorContext)
    (config : ShipConfig)
    (hcfg : buildConfig g options context = .ok config) :
    (shipIt (.ok g) behavior options context).2 =
      .ok ⟨(phaseList (options.dryRun.getD false)).all behavior⟩ ∧
    ((phaseList (options.dryRun.getD false)).all behavior = true ↔
      ∀ p ∈ phaseList (options.dryRun.getD false), behavior p = true) := by
  constructor
  · simp [shipIt, hcfg, runPhases_snd]
  · exact List.all_eq_true

theorem shipIt_result_boolean_collapse_witness :
    buildConfig chainGraph exampleOptions workspaceContext =
      .ok (baseConfig exampleOptions workspaceContext) ∧
    (shipIt (.ok chainGraph) corruptionFails exampleOptions
        workspaceContext).2 =
      .ok ⟨(phaseList (exampleOptions.dryRun.getD false)).all
        corruptionFails⟩ ∧
    (phaseList (exampleOptions.dryRun.getD false)).all corruptionFails =
      false :=
  ⟨rfl,
    (shipIt_result_boolean_collapse chainGraph corruptionFails exampleOptions
      workspaceContext (baseConfig exampleOptions workspaceContext) rfl).1,
    rfl⟩

/-- C5: for a non-dry run that reaches VerifyRepo (every phase other than
VerifyRepo succeeds), the run fails and Push never executes exactly when
VerifyRepo detects a missing required artifact or a warning count strictly
greater than `maxWarnings`; the witness instantiates the two spec scenarios
(`maxWarnings = 0` with 1 warning fails, `maxWarnings = 1` with the same
warning succeeds). -/
theorem shipIt_verifyRepo_threshold
    (g : ProjectGraph) (behavior : PhaseName → Bool)
    (options : ShipExecutorOptions) (context : ExecutorContext)
    (config : ShipConfig) (warnings maxWarnings : Nat)
    (missingArtifact : Bool)
    (hcfg : buildConfig g options context = .ok config)
    (hdry : options.dryRun.getD false = false)
    (hvr : behavior .verifyRepo =
      verifyRepoSucceeds warnings missingArtifact maxWarnings)
    (hothers : ∀ p, p ≠ PhaseName.verifyRepo → behavior p = true) :
    ((shipIt (.ok g) behavior options context).2 = .ok ⟨false⟩ ∧
      PhaseName.push ∉ (shipIt (.ok g) behavior options context).1) ↔
    (missingArtifact = true ∨ maxWarnings < warnings) := by
  have hc1 := hothers .clone (by simp)
  have hc2 := hothers .corruptionCheck (by simp)
  have hc3 := hothers .clean (by simp)
  have hc4 := hothers .sync (by simp)
  have hc5 := hothers .postProcess (by simp)
  have hc6 := hothers .push (by simp)
  by_cases hvs : verifyRepoSucceeds warnings missingArtifact maxWarnings = true
  · have hall : ∀ p, behavior p = true := by
      intro p
      cases p
      all_goals first
        | assumption
        | (rw [hvr]; exact hvs)
    have hrun := runPhases_all_true
      (phaseList false) (fun p _ => hall p)
    simp [phaseList] at hrun
    have hship : shipIt (.ok g) behavior options context =
        ([.clone, .corruptionCheck, .clean, .sync, .verifyRepo, .postProcess,
          .push], .ok ⟨true⟩) := by
      simp [shipIt, hcfg, hdry, phaseList, hrun]
    rw [hship]
    simp only [verifyRepoSucceeds, Bool.and_eq_true, Bool.not_eq_true',
      decide_eq_true_eq] at hvs
    constructor
    · rintro ⟨h1, -⟩
      exact absurd h1 (by simp)
    · rintro (h | h)
      · rw [hvs.1] at h
        exact absurd h Bool.false_ne_true
      · exact absurd h (by omega)
  · have hvf : behavior .verifyRepo = false := by
      rw [hvr]
      exact Bool.not_eq_true _ ▸ Bool.eq_false_iff.mpr hvs
    have hpre : ∀ q ∈ ([.clone, .corruptionCheck, .clean, .sync] :
        List PhaseName), behavior q = true := by
      intro q hq
      fin_cases hq <;> assumption
    have hrun := runPhases_first_failure
      [.clone, .corruptionCheck, .clean, .sync] .verifyRepo
      [.postProcess, .push] hpre hvf
    simp at hrun
    have hship : shipIt (.ok g) behavior options context =
        ([.clone, .corruptionCheck, .clean, .sync, .verifyRepo],
          .ok ⟨false⟩) := by
      simp [shipIt, hcfg, hdry, phaseList, hrun]
    rw [hship]
    simp only [verifyRepoSucceeds, Bool.and_eq_true, Bool.not_eq_true',
      decide_eq_true_eq, not_and] at hvs
    constructor
    · intro _
      by_cases hm : missingArtifact = true
      · exact Or.inl hm
      · refine Or.inr ?_
        have := hvs (Bool.not_eq_true _ ▸ hm)
        omega
    · intro _
      refine ⟨rfl, ?_⟩
      simp

theorem shipIt_verifyRepo_threshold_witness :
    buildConfig chainGraph exampleOptions workspaceContext =
      .ok (baseConfig exampleOptions workspaceContext) ∧
    ((shipIt (.ok chainGraph) strictVerify exampleOptions
        workspaceContext).2 = .ok ⟨false⟩ ∧
      PhaseName.push ∉ (shipIt (.ok chainGraph) strictVerify exampleOptions
        workspaceContext).1) ∧
    (shipIt (.ok chainGraph) lenientVerify exampleOptions
        workspaceContext).2 = .ok ⟨true⟩ :=
  ⟨rfl,
    (shipIt_verifyRepo_threshold chainGraph strictVerify exampleOptions
      workspaceContext (baseConfig exampleOptions workspaceContext) 1 0 false
      rfl rfl rfl
      (fun p hp => by cases p <;> first | rfl | exact absurd rfl hp)).mpr
      (Or.inr (by omega)),
    rfl⟩

/-- C6: in the config built by `shipIt`, the single-project fields (project,
projectRoot, dependencies, dependents, workspace) are present exactly when the
execution context names a project — in the TypeScript truthiness sense, so an
absent or empty name does not count — and that name is not the sentinel
`workspace`; otherwise every one of them is absent (`none`), not defaulted to
an empty collection. -/
theorem buildConfig_single_project_fields_iff
    (g : ProjectGraph) (options : ShipExecutorOptions)
    (context : ExecutorContext) (config : ShipConfig)
    (hcfg : buildConfig g options context = .ok config) :
    config.project.isSome = namesSingleProject context ∧
    config.projectRoot.isSome = namesSingleProject context ∧
    config.dependencies.isSome = namesSingleProject context ∧
    config.dependents.isSome = namesSingleProject context ∧
    config.workspace.isSome = namesSingleProject context := by
  rcases hn : context.projectName with _ | s
  · simp only [buildConfig, hn] at hcfg
    rw [Except.ok.injEq] at hcfg
    subst hcfg
    simp [baseConfig, namesSingleProject, hn]
  · by_cases hse : s = "" ∨ s = "workspace"
    · simp only [buildConfig, hn, if_pos hse] at hcfg
      rw [Except.ok.injEq] at hcfg
      subst hcfg
      rcases hse with h | h <;>
        simp [baseConfig, namesSingleProject, hn, h]
    · push_neg at hse
      have hname : namesSingleProject context = true := by
        simp [namesSingleProject, hn, hse.1, hse.2]
      simp only [buildConfig, hn, if_neg (by tauto :
        ¬(s = "" ∨ s = "workspace"))] at hcfg
      rcases hd : findDependencies g s with e | deps <;> rw [hd] at hcfg
      · simp at hcfg
      · rcases ht : findDependents g s with e | depts <;> rw [ht] at hcfg
        · simp at hcfg
        · simp only [Except.ok.injEq] at hcfg
          subst hcfg
          simp [baseConfig, hname]

theorem buildConfig_single_project_fields_iff_witness :
    buildConfig chainGraph exampleOptions projectContext =
      .ok exampleSingleConfig ∧
    buildConfig chainGraph exampleOptions workspaceContext =
      .ok (baseConfig exampleOptions workspaceContext) ∧
    exampleSingleConfig.dependencies.isSome =
      namesSingleProject projectContext ∧
    (baseConfig exampleOptions workspaceContext).dependencies.isSome =
      namesSingleProject workspaceContext :=
  ⟨rfl, rfl,
    (buildConfig_single_project_fields_iff chainGraph exampleOptions
      projectContext exampleSingleConfig rfl).2.2.1,
    (buildConfig_single_project_fields_iff chainGraph exampleOptions
      workspaceContext (baseConfig exampleOptions workspaceContext)
      rfl).2.2.1⟩

/-- C7: for every dependency graph (cycles and diamonds included) and every
project `p` in it, `findDependencies` succeeds — the traversal is total, so it
terminates by construction — and returns the set of exactly those projects
transitively reachable from `p` along depends-on edges other than `p` itself;
as a `Finset`, the result holds each project at most once. -/
theorem findDependencies_reachability
    (g : ProjectGraph) (p : String) (hp : p ∈ keys g) :
    findDependencies g p = .ok (dependencySet g p) ∧
    (∀ q, q ∈ dependencySet g p ↔
      q ≠ p ∧ Relation.ReflTransGen (Edge g) p q) ∧
    (dependencySet g p).val.Nodup := by
  refine ⟨by simp [findDependencies, hp], ?_, (dependencySet g p).nodup⟩
  intro q
  exact mem_dependencySet

theorem findDependencies_reachability_witness :
    "a" ∈ keys cycleGraph ∧
    findDependencies cycleGraph "a" = .ok (dependencySet cycleGraph "a") ∧
    ("b" ∈ dependencySet cycleGraph "a" ↔
      "b" ≠ "a" ∧ Relation.ReflTransGen (Edge cycleGraph) "a" "b") :=
  ⟨by decide,
    (findDependencies_reachability cycleGraph "a" (by decide)).1,
    (findDependencies_reachability cycleGraph "a" (by decide)).2.1 "b"⟩

/-- C8: for every dependency graph and all projects `p` and `q` in it,
`q` is among the dependents of `p` exactly when `p` is among the
dependencies of `q`: `findDependents` is the inverse relation of
`findDependencies` on the same graph. -/
theorem findDependents_inverse_of_findDependencies
    (g : ProjectGraph) (p q : String) (hp : p ∈ keys g) (hq : q ∈ keys g) :
    (∃ dp, findDependents g p = .ok dp ∧ q ∈ dp) ↔
    (∃ dq, findDependencies g q = .ok dq ∧ p ∈ dq) := by
  have h1 : findDependents g p = .ok (dependentSet g p) := by
    simp [findDependents, hp]
  have h2 : findDependencies g q = .ok (dependencySet g q) := by
    simp [findDependencies, hq]
  constructor
  · rintro ⟨dp, hdp, hmem⟩
    rw [h1, Except.ok.injEq] at hdp
    subst hdp
    have hchar := mem_dependentSet.mp hmem
    exact ⟨dependencySet g q, h2,
      mem_dependencySet.mpr ⟨Ne.symm hchar.1, hchar.2⟩⟩
  · rintro ⟨dq, hdq, hmem⟩
    rw [h2, Except.ok.injEq] at hdq
    subst hdq
    have hchar := mem_dependencySet.mp hmem
    exact ⟨dependentSet g p, h1,
      mem_dependentSet.mpr ⟨Ne.symm hchar.1, hchar.2⟩⟩

theorem findDependents_inverse_of_findDependencies_witness :
    "C" ∈ keys chainGraph ∧ "A" ∈ keys chainGraph ∧
    ((∃ dp, findDependents chainGraph "C" = .ok dp ∧ "A" ∈ dp) ↔
      (∃ dq, findDependencies chainGraph "A" = .ok dq ∧ "C" ∈ dq)) :=
  ⟨by decide, by decide,
    findDependents_inverse_of_findDependencies chainGraph "C" "A"
      (by decide) (by decide)⟩

/-- C9: when the invocation names a target project (truthy and not the
sentinel `workspace`) that is not in the project graph, the resolver failure
surfaces during config construction, before the pipeline starts: `shipIt`
rejects with the configuration error and no phase — not even Clone —
executes (the trace is empty). -/
theorem shipIt_project_not_found_pre_pipeline
    (g : ProjectGraph) (behavior : PhaseName → Bool)
    (options : ShipExecutorOptions) (context : ExecutorContext) (s : String)
    (hname : context.projectName = some s) (hne : s ≠ "")
    (hnw : s ≠ "workspace") (hmiss : s ∉ keys g) :
    shipIt (.ok g) behavior options context =
      ([], .error (.projectNotFound s)) := by
  have hd : findDependencies g s = .error (.projectNotFound s) := by
    simp [findDependencies, hmiss]
  have hcfg : buildConfig g options context =
      .error (.projectNotFound s) := by
    simp [buildConfig, hname, hne, hnw, hd]
  simp [shipIt, hcfg]

theorem shipIt_project_not_found_pre_pipeline_witness :
    missingContext.projectName = some "Z" ∧ "Z" ≠ "" ∧ "Z" ≠ "workspace" ∧
    "Z" ∉ keys chainGraph ∧
    shipIt (.ok chainGraph) allSucceed exampleOptions missingContext =
      ([], .error (.projectNotFound "Z")) :=
  ⟨rfl, by decide, by decide, by decide,
    shipIt_project_not_found_pre_pipeline chainGraph allSucceed
      exampleOptions missingContext "Z" rfl (by decide) (by decide)
      (by decide)⟩

/-- C10: only the pipeline's own failure is converted into
`{success: false}`: a rejected project-graph creation or a failure during
config construction (resolution) propagates as a rejection of the promise
`shipIt` returns — the `.catch` wraps only the `runPhases` chain — so for
pre-pipeline errors the caller never receives a `{success: false}` value,
while after a successful construction the outcome is always
`{success: b}` for the pipeline's boolean `b`. -/
theorem shipIt_pre_pipeline_errors_propagate
    (g : ProjectGraph) (behavior : PhaseName → Bool)
    (options : ShipExecutorOptions) (context : ExecutorContext)
    (e : ShipError) :
    (shipIt (.error e) behavior options context = ([], .error e)) ∧
    (buildConfig g options context = .error e →
      shipIt (.ok g) behavior options context = ([], .error e)) ∧
    (∀ config, buildConfig g options context = .ok config →
      (shipIt (.ok g) behavior options context).2 =
        .ok ⟨(runPhases behavior
          (phaseList (options.dryRun.getD false))).2⟩) := by
  refine ⟨rfl, ?_, ?_⟩
  · intro h
    simp [shipIt, h]
  · intro config h
    simp [shipIt, h]

theorem shipIt_pre_pipeline_errors_propagate_witness :
    shipIt (.error .graphCreation) allSucceed exampleOptions
        workspaceContext = ([], .error .graphCreation) ∧
    buildConfig chainGraph exampleOptions missingContext =
      .error (.projectNotFound "Z") ∧
    shipIt (.ok chainGraph) allSucceed exampleOptions missingContext =
      ([], .error (.projectNotFound "Z")) ∧
    (shipIt (.ok chainGraph) allSucceed exampleOptions workspaceContext).2 =
      .ok ⟨(runPhases allSucceed
        (phaseList (exampleOptions.dryRun.getD false))).2⟩ :=
  ⟨(shipIt_pre_pipeline_errors_propagate chainGraph allSucceed
      exampleOptions workspaceContext .graphCreation).1,
    rfl,
    (shipIt_pre_pipeline_errors_propagate chainGraph allSucceed
      exampleOptions missingContext (.projectNotFound "Z")).2.1 rfl,
    (shipIt_pre_pipeline_errors_propagate chainGraph allSucceed
      exampleOptions workspaceContext .graphCreation).2.2
      (baseConfig exampleOptions workspaceContext) rfl⟩

end ShipitNx
